import Mathlib

/-!
Verification of the zephinax profile-box renderer.

JavaScript strings are modelled as `List Char`; the source functions
(`stripAnsi`, `visibleLength`, `wrapText`, `clean`, `boxTop`, `boxBottom`,
`boxLine`, `boxDivider`, `fieldLine`, `render`, `fetchProfile`/`main` glue)
are translated one by one.  The canonical source version is the one with
`CONTENT_MARGIN` and labelled section dividers.
-/

/-! ## Definitions: the shallow embedding of the source -/

/-- Converts a Lean string literal to the `List Char` model of a JS string. -/
def str (s : String) : List Char := s.data

/-- The escape characters that can start a match: U+001B and U+009B. -/
def isEsc (c : Char) : Bool := c = Char.ofNat 27 || c = Char.ofNat 155

/-- Characters of the intermediate class `[[()#;?]`. -/
def isInterm (c : Char) : Bool :=
  c = '[' || c = '(' || c = ')' || c = '#' || c = ';' || c = '?'

/-- ASCII decimal digit test, matching the regex class `[0-9]`. -/
def isDigitCh (c : Char) : Bool := '0' ≤ c && c ≤ '9'

/-- Characters of the final class `[0-9A-ORZcf-nqry=><]`. -/
def isFinalCh (c : Char) : Bool :=
  isDigitCh c || ('A' ≤ c && c ≤ 'O') || c = 'R' || c = 'Z' || c = 'c' ||
  ('f' ≤ c && c ≤ 'n') || c = 'q' || c = 'r' || c = 'y' || c = '=' || c = '>' || c = '<'

/-- Length of the maximal prefix of decimal digits. -/
def leadingDigitCount : List Char → Nat
  | [] => 0
  | c :: t => if isDigitCh c then leadingDigitCount t + 1 else 0

/-- Length of the maximal prefix of intermediate-class characters. -/
def leadingIntermCount : List Char → Nat
  | [] => 0
  | c :: t => if isInterm c then leadingIntermCount t + 1 else 0

/-- First successful alternative, in the given preference order. -/
def firstSome : List Nat → (Nat → Option Nat) → Option Nat
  | [], _ => none
  | j :: js, f =>
    match f j with
    | some n => some n
    | none => firstSome js f

/-- Candidate repetition counts `[m, m-1, ..., 0]`, greedy order. -/
def descList (m : Nat) : List Nat := (List.range (m + 1)).reverse

/-- Candidate repetition counts `[m, m-1, ..., 1]`, greedy order. -/
def descList1 (m : Nat) : List Nat := (List.range m).reverse.map (fun k => k + 1)

/-- Tries to match the final character class at the head, consuming one char. -/
def matchFinal : List Char → Option Nat
  | [] => none
  | c :: _ => if isFinalCh c then some 1 else none

/-- One unfolding of the matcher for `(?:;[0-9]{0,4})*` followed by the final
character class: try one more repetition first (digits greedy from 4 down),
otherwise fall back to matching the final character here. -/
def repsStep (rec : List Char → Option Nat) : List Char → Option Nat
  | [] => none
  | c :: t =>
    match (if c = ';' then
            firstSome (descList (min 4 (leadingDigitCount t)))
              (fun j => (rec (t.drop j)).map (fun n => 1 + j + n))
           else none) with
    | some n => some n
    | none => matchFinal (c :: t)

/-- Fuelled matcher for `(?:;[0-9]{0,4})* [final]`. -/
def repsF : Nat → List Char → Option Nat
  | 0, _ => none
  | fuel + 1, s => repsStep (repsF fuel) s

/-- Matcher for `(?:;[0-9]{0,4})* [final]` with enough fuel. -/
def repsFC (s : List Char) : Option Nat := repsF (s.length + 1) s

/-- Matcher for `(?:[0-9]{1,4}(?:;[0-9]{0,4})*)? [final]`: the optional digit
part is preferred, with the digit count greedy from 4 down to 1. -/
def matchAfterI (s : List Char) : Option Nat :=
  match firstSome (descList1 (min 4 (leadingDigitCount s)))
      (fun j => (repsFC (s.drop j)).map (fun n => j + n)) with
  | some n => some n
  | none => matchFinal s

/-- Matcher for everything after the escape character:
`[[()#;?]* (?:digits...)? [final]`, the intermediate run greedy. -/
def matchAfterEsc (s : List Char) : Option Nat :=
  firstSome (descList (leadingIntermCount s))
    (fun i => (matchAfterI (s.drop i)).map (fun n => i + n))

/-- One unfolding of the global-replace scan: at an escape character attempt a
match and remove it, otherwise keep the character. -/
def stripStep (rec : List Char → List Char) : List Char → List Char
  | [] => []
  | c :: rest =>
    if isEsc c then
      match matchAfterEsc rest with
      | some n => rec (rest.drop n)
      | none => c :: rec rest
    else c :: rec rest

/-- Fuelled global-replace scan. -/
def stripCoreF : Nat → List Char → List Char
  | 0, s => s
  | fuel + 1, s => stripStep (stripCoreF fuel) s

/-- The source's `stripAnsi`: removes every match of the CSI regex. -/
def stripAnsi (s : List Char) : List Char := stripCoreF s.length s

/-- The source's `visibleLength`: length after stripping ANSI escapes. -/
def visibleLength (s : List Char) : Nat := (stripAnsi s).length

/-- A tail is inert when none of its characters can take part in a match:
no escapes, no intermediate-class, digit, or final-class characters. -/
def inertTail (b : List Char) : Prop :=
  ∀ c ∈ b, isEsc c = false ∧ isInterm c = false ∧ isDigitCh c = false ∧
    isFinalCh c = false

/-- The JS whitespace class `\s` (also the set trimmed by `trim`). -/
def isSpaceJS (c : Char) : Bool :=
  c = ' ' || c = Char.ofNat 9 || c = Char.ofNat 10 || c = Char.ofNat 11 ||
  c = Char.ofNat 12 || c = Char.ofNat 13 || c = Char.ofNat 160 ||
  c = Char.ofNat 0x1680 ||
  (Char.ofNat 0x2000 ≤ c && c ≤ Char.ofNat 0x200A) ||
  c = Char.ofNat 0x2028 || c = Char.ofNat 0x2029 || c = Char.ofNat 0x202F ||
  c = Char.ofNat 0x205F || c = Char.ofNat 0x3000 || c = Char.ofNat 0xFEFF

/-- JS line terminators (where a multiline `^` can match after). -/
def isLineTerm (c : Char) : Bool :=
  c = Char.ofNat 10 || c = Char.ofNat 13 || c = Char.ofNat 0x2028 ||
  c = Char.ofNat 0x2029

/-- Removes trailing JS whitespace. -/
def dropTrailingWS (s : List Char) : List Char :=
  (s.reverse.dropWhile isSpaceJS).reverse

/-- The JS `trim`: removes leading and trailing whitespace. -/
def jsTrim (s : List Char) : List Char :=
  dropTrailingWS (s.dropWhile isSpaceJS)

/-- Splits on the regex `\r?\n` as JS `split` does. -/
def splitLines : List Char → List (List Char)
  | [] => [[]]
  | Char.mk 13 _ :: Char.mk 10 _ :: rest => [] :: splitLines rest
  | Char.mk 10 _ :: rest => [] :: splitLines rest
  | c :: rest =>
    match splitLines rest with
    | seg :: segs => (c :: seg) :: segs
    | [] => [[c]]

/-- Splits on runs of whitespace as JS `split(/\s+/)` does (leading or
trailing runs produce empty fragments, interior runs none). -/
def splitWS : List Char → List (List Char)
  | [] => [[]]
  | c :: rest =>
    if isSpaceJS c then
      match rest with
      | r :: _ => if isSpaceJS r then splitWS rest else [] :: splitWS rest
      | [] => [] :: splitWS rest
    else
      match splitWS rest with
      | seg :: segs => (c :: seg) :: segs
      | [] => [[c]]

/-- The greedy line-packing loop of `wrapText`: `lines`/`current` mirror the
mutable state, and the final non-empty `current` is pushed at the end. -/
def packLoop (width : Nat) : List (List Char) → List Char → List (List Char) →
    List (List Char)
  | lines, current, [] => if current = [] then lines else lines ++ [current]
  | lines, current, wd :: ws =>
    if width < (if current = [] then wd else current ++ ' ' :: wd).length then
      packLoop width (if current = [] then lines else lines ++ [current]) wd ws
    else
      packLoop width lines (if current = [] then wd else current ++ ' ' :: wd) ws

/-- Wraps one already-trimmed paragraph and prefixes the indent. -/
def wrapPara (width indent : Nat) (para : List Char) : List (List Char) :=
  (packLoop width [] [] (splitWS para)).map
    (fun l => List.replicate indent ' ' ++ l)

/-- The source's `wrapText`: split into paragraphs, trim, drop empties, and
greedily pack words into lines of at most `width` characters. -/
def wrapText (text : List Char) (width indent : Nat) : List (List Char) :=
  if text = [] then []
  else (((splitLines text).map jsTrim).filter (fun p => !p.isEmpty)).flatMap
    (wrapPara width indent)

/-- Removes every occurrence of the bold marker `**`. -/
def removeStars : List Char → List Char
  | [] => []
  | '*' :: '*' :: rest => removeStars rest
  | c :: rest => c :: removeStars rest

/-- Removes `>` (plus one optional whitespace char) at line starts, as the
multiline replace of `^>\s?` does; the flag records whether the scan position
is at a line start. -/
def stripQuotes : Bool → List Char → List Char
  | _, [] => []
  | atStart, c :: rest =>
    if atStart && c = '>' then
      match rest with
      | [] => []
      | d :: r2 =>
        if isSpaceJS d then stripQuotes (isLineTerm d) r2
        else stripQuotes false (d :: r2)
    else c :: stripQuotes (isLineTerm c) rest

/-- Replaces every match of `\r?\n\s*` by a single newline; in skipping mode
the scan is inside the `\s*` tail of a match. -/
def normNL : Bool → List Char → List Char
  | _, [] => []
  | true, c :: rest =>
    if isSpaceJS c then normNL true rest else c :: normNL false rest
  | false, Char.mk 13 _ :: Char.mk 10 _ :: rest => Char.ofNat 10 :: normNL true rest
  | false, Char.mk 10 _ :: rest => Char.ofNat 10 :: normNL true rest
  | false, c :: rest => c :: normNL false rest

/-- The source's `clean`: drop bold markers, strip block quotes, collapse
newline-plus-whitespace runs, then trim. -/
def clean (text : List Char) : List Char :=
  if text = [] then []
  else jsTrim (normNL false (stripQuotes true (removeStars text)))

/-- Joins further words onto an already-built line, one space between words,
mirroring how `packLoop` grows `current`. -/
def joinCont : List Char → List (List Char) → List Char
  | cur, [] => cur
  | cur, w :: ws => joinCont (cur ++ ' ' :: w) ws

/-- Joins a word list with single spaces. -/
def joinWords : List (List Char) → List Char
  | [] => []
  | w :: ws => joinCont w ws

/-- No two adjacent whitespace characters. -/
def noAdjSp : List Char → Bool
  | a :: b :: r => !(isSpaceJS a && isSpaceJS b) && noAdjSp (b :: r)
  | _ => true

/-- Every whitespace character is a plain blank, and no two are adjacent. -/
def wsNormalized (l : List Char) : Bool :=
  l.all (fun c => !isSpaceJS c || c = ' ') && noAdjSp l

/-- The `color.cyan` closure: wraps in `ESC[36m` ... `ESC[0m`. -/
def cyan (s : List Char) : List Char := str "\x1b[36m" ++ s ++ str "\x1b[0m"

/-- The `color.magenta` closure. -/
def magenta (s : List Char) : List Char := str "\x1b[35m" ++ s ++ str "\x1b[0m"

/-- The `color.yellow` closure. -/
def yellow (s : List Char) : List Char := str "\x1b[33m" ++ s ++ str "\x1b[0m"

/-- The `color.bold` closure. -/
def bold (s : List Char) : List Char := str "\x1b[1m" ++ s ++ str "\x1b[0m"

/-- The `color.dim` closure. -/
def dim (s : List Char) : List Char := str "\x1b[2m" ++ s ++ str "\x1b[0m"

/-- The fixed horizontal content margin of the box. -/
def CONTENT_MARGIN : Nat := 1

/-- JS `slice(0, e)` with a possibly negative end index. -/
def jsSliceTo (s : List Char) (e : Int) : List Char :=
  s.take (if e < 0 then (s.length + e).toNat else e.toNat)

/-- JS `padEnd(n)`: pad on the right with blanks up to length `n`. -/
def padEnd (s : List Char) (n : Nat) : List Char :=
  s ++ List.replicate (n - s.length) ' '

/-- The inner content width of a box row: `width - 4 - 2 * margin`,
clamped at zero. -/
def innerOf (width : Nat) : Nat := width - 4 - CONTENT_MARGIN * 2

/-- The content that `boxLine` places in the row: the text itself, or the
ANSI-stripped text truncated to `inner - 1` characters plus an ellipsis when
the visible length exceeds the inner width. -/
def rawOf (text : List Char) (width : Nat) : List Char :=
  if innerOf width < visibleLength text then
    jsSliceTo (stripAnsi text) ((innerOf width : Int) - 1) ++ ['…']
  else text

/-- The right padding that fills the row up to the inner width. -/
def padOf (text : List Char) (width : Nat) : Nat :=
  innerOf width - visibleLength (rawOf text width)

/-- The source's `boxLine`: one bordered content row. -/
def boxLine (text : List Char) (width : Nat) : List Char :=
  '│' :: ' ' :: (List.replicate CONTENT_MARGIN ' ' ++ rawOf text width ++
    List.replicate (padOf text width) ' ' ++ List.replicate CONTENT_MARGIN ' ' ++
    [' ', '│'])

/-- The optional padded title token of `boxTop`. -/
def titleOf (label : List Char) : List Char :=
  if label = [] then [] else ' ' :: label ++ [' ']

/-- The source's `boxTop`: rounded corner, optional label, horizontal rule. -/
def boxTop (label : List Char) (width : Nat) : List Char :=
  '╭' :: (titleOf label ++ List.replicate (width - 2 - (titleOf label).length) '─' ++
    ['╮'])

/-- The source's `boxBottom`. -/
def boxBottom (width : Nat) : List Char :=
  '╰' :: (List.replicate (width - 2) '─' ++ ['╯'])

/-- The upper-cased tag token of `boxDivider`. -/
def tagOf (label : List Char) : List Char :=
  if label = [] then [] else ' ' :: label.map Char.toUpper ++ [' ']

/-- The source's `boxDivider`: left tee, upper-cased label, rule, right tee. -/
def boxDivider (label : List Char) (width : Nat) : List Char :=
  '├' :: (tagOf label ++ List.replicate (width - 2 - (tagOf label).length) '─' ++
    ['┤'])

/-- A profile record; absent fields are modelled as the empty string, which is
exactly how the JS code treats them (both are falsy). -/
structure Profile where
  displayName : List Char := []
  username : List Char := []
  pronouns : List Char := []
  firstName : List Char := []
  lastName : List Char := []
  jobTitle : List Char := []
  timeZone : List Char := []
  email : List Char := []
  website : List Char := []
  about : List Char := []
  bio : List Char := []

/-- The empty profile `{}`. -/
def emptyProfile : Profile := {}

/-- JS `a || b` on strings (empty string is falsy). -/
def jsOr (a b : List Char) : List Char := if a = [] then b else a

/-- JS `columns || 80` where `columns` may be absent. -/
def jsOrNum (columns : Option Nat) (dflt : Nat) : Nat :=
  match columns with
  | some c => if c = 0 then dflt else c
  | none => dflt

/-- The box width chosen by `render`:
`Math.max(60, Math.min(process.stdout.columns || 80, 100))`. -/
def computeWidth (columns : Option Nat) : Nat :=
  max 60 (min (jsOrNum columns 80) 100)

/-- The header line: bold display name (or username, or the product name),
optionally followed by pronouns in parentheses, trimmed. -/
def headerOf (p : Profile) : List Char :=
  jsTrim (bold (jsOr p.displayName (jsOr p.username (str "Zephinax"))) ++
    [' '] ++ (if p.pronouns = [] then [] else '(' :: (p.pronouns ++ [')'])))

/-- The optional full-name line. -/
def fullNameOf (p : Profile) : Option (List Char) :=
  if p.firstName = [] ∧ p.lastName = [] then none
  else some (jsTrim (p.firstName ++ ' ' :: p.lastName))

/-- The optional dimmed secondary line. -/
def secondaryOf (p : Profile) : Option (List Char) := (fullNameOf p).map dim

/-- The cleaned about text: `clean(profile.about || profile.bio)`. -/
def aboutOf (p : Profile) : List Char := clean (jsOr p.about p.bio)

/-- The wrapped about lines: `about ? wrapText(about, contentWidth - 2, 0) : []`. -/
def aboutLinesOf (p : Profile) (width : Nat) : List (List Char) :=
  if aboutOf p = [] then []
  else wrapText (aboutOf p) (innerOf width - 2) 0

/-- The source's `fieldLine`: a labelled row, or nothing for an empty value. -/
def fieldLine (label value : List Char) (width : Nat) : Option (List Char) :=
  if value = [] then none
  else some (boxLine (yellow (padEnd (label ++ [':']) 8) ++ ' ' :: value) width)

/-- The rows of the rendered box, in order, with absent rows dropped
(the `.filter(Boolean)` of the source). -/
def renderLines (p : Profile) (columns : Option Nat) : List (List Char) :=
  ([some (boxTop (str "Profile") (computeWidth columns)),
    some (boxLine (cyan (headerOf p)) (computeWidth columns)),
    (secondaryOf p).map (fun s => boxLine s (computeWidth columns)),
    some (boxDivider (str "details") (computeWidth columns)),
    fieldLine (str "Role") p.jobTitle (computeWidth columns),
    fieldLine (str "Timezone") p.timeZone (computeWidth columns),
    some (boxDivider (str "contact") (computeWidth columns)),
    fieldLine (str "Email") p.email (computeWidth columns),
    fieldLine (str "Web") p.website (computeWidth columns),
    if aboutLinesOf p (computeWidth columns) = [] then none
    else some (boxDivider (str "about") (computeWidth columns))] ++
   (aboutLinesOf p (computeWidth columns)).map
     (fun l => some (boxLine l (computeWidth columns))) ++
   [some (boxBottom (computeWidth columns))]).filterMap id

/-- The source's `render`: the rows joined with newlines. -/
def render (p : Profile) (columns : Option Nat) : List Char :=
  List.intercalate [Char.ofNat 10] (renderLines p columns)

/-- The error message thrown on a non-2xx response, in both fetch paths. -/
def statusMsg (status : Nat) : List Char :=
  str "Request failed with status " ++ (Nat.repr status).data

/-- Models `fetchProfile`: both the `fetch` path (`!res.ok` throws) and the
`https.get` fallback (`statusCode < 200 || statusCode >= 300` rejects) fail
with the same message on a non-2xx status; otherwise the parsed body is
returned (`Option Profile` models the presence of the `data` field). -/
def fetchProfileModel (status : Nat) (body : Except (List Char) (Option Profile)) :
    Except (List Char) (Option Profile) :=
  if status < 200 ∨ 300 ≤ status then Except.error (statusMsg status) else body

/-- The coloured error line printed by `main` on failure. -/
def errorLine (msg : List Char) : List Char :=
  magenta (str "Error:") ++ ' ' :: msg

/-- The observable outcome of one run of `main`. -/
structure ProcOutcome where
  stdout : Option (List Char)
  stderr : Option (List Char)
  exitCode : Nat

/-- Models `main`: on a fetch error or missing `data` field, print the
coloured error to stderr and set the exit code to 1; otherwise print the
rendered box. -/
def mainModel (fetched : Except (List Char) (Option Profile))
    (columns : Option Nat) : ProcOutcome :=
  match fetched with
  | Except.error msg => ⟨none, some (errorLine msg), 1⟩
  | Except.ok none => ⟨none, some (errorLine (str "No profile data returned.")), 1⟩
  | Except.ok (some p) => ⟨some (render p columns), none, 0⟩

/-! ## Lemmas and claim theorems -/

theorem firstSome_congr (l : List Nat) (f g : Nat → Option Nat)
    (h : ∀ j ∈ l, f j = g j) : firstSome l f = firstSome l g := by
  induction l with
  | nil => rfl
  | cons j js ih =>
    simp only [firstSome]
    rw [h j (by simp)]
    cases g j with
    | some n => rfl
    | none => exact ih (fun j hj => h j (by simp [hj]))

theorem repsStep_congr (rec1 rec2 : List Char → Option Nat) (s : List Char)
    (h : ∀ x : List Char, x.length < s.length → rec1 x = rec2 x) :
    repsStep rec1 s = repsStep rec2 s := by
  cases s with
  | nil => rfl
  | cons c t =>
    simp only [repsStep]
    have hcong : firstSome (descList (min 4 (leadingDigitCount t)))
          (fun j => (rec1 (t.drop j)).map (fun n => 1 + j + n)) =
        firstSome (descList (min 4 (leadingDigitCount t)))
          (fun j => (rec2 (t.drop j)).map (fun n => 1 + j + n)) := by
      apply firstSome_congr
      intro j _
      rw [h (t.drop j) (by simp [List.length_drop]; omega)]
    by_cases hc : c = ';' <;> simp [hc, hcong]

theorem repsF_stable : ∀ bound s f g, s.length ≤ bound →
    s.length < f → s.length < g → repsF f s = repsF g s := by
  intro bound
  induction bound with
  | zero =>
    intro s f g hb hf hg
    have hs : s = [] := List.length_eq_zero.mp (Nat.le_zero.mp hb)
    subst hs
    obtain ⟨f, rfl⟩ := Nat.exists_eq_succ_of_ne_zero (Nat.pos_iff_ne_zero.mp hf)
    obtain ⟨g, rfl⟩ := Nat.exists_eq_succ_of_ne_zero (Nat.pos_iff_ne_zero.mp hg)
    rfl
  | succ bound ih =>
    intro s f g hb hf hg
    obtain ⟨f, rfl⟩ := Nat.exists_eq_succ_of_ne_zero (by omega : f ≠ 0)
    obtain ⟨g, rfl⟩ := Nat.exists_eq_succ_of_ne_zero (by omega : g ≠ 0)
    show repsStep (repsF f) s = repsStep (repsF g) s
    apply repsStep_congr
    intro x hx
    exact ih x f g (by omega) (by omega) (by omega)

theorem repsFC_eq (s : List Char) : repsFC s = repsStep repsFC s := by
  show repsStep (repsF s.length) s = repsStep repsFC s
  apply repsStep_congr
  intro x hx
  exact repsF_stable s.length x s.length (x.length + 1) (by omega) hx (by omega)

theorem stripStep_congr (rec1 rec2 : List Char → List Char) (s : List Char)
    (h : ∀ x : List Char, x.length < s.length → rec1 x = rec2 x) :
    stripStep rec1 s = stripStep rec2 s := by
  cases s with
  | nil => rfl
  | cons c rest =>
    simp only [stripStep]
    have hrest : rec1 rest = rec2 rest := h rest (by simp)
    by_cases he : isEsc c
    · simp only [he, if_true]
      cases matchAfterEsc rest with
      | some n => exact h (rest.drop n) (by simp [List.length_drop]; omega)
      | none => rw [hrest]
    · simp [he, hrest]

theorem stripCoreF_stable : ∀ bound s f g, s.length ≤ bound →
    s.length ≤ f → s.length ≤ g → stripCoreF f s = stripCoreF g s := by
  intro bound
  induction bound with
  | zero =>
    intro s f g hb _ _
    have hs : s = [] := List.length_eq_zero.mp (Nat.le_zero.mp hb)
    subst hs
    cases f <;> cases g <;> rfl
  | succ bound ih =>
    intro s f g hb hf hg
    cases s with
    | nil => cases f <;> cases g <;> rfl
    | cons c rest =>
      obtain ⟨f, rfl⟩ := Nat.exists_eq_succ_of_ne_zero (by simp at hf; omega : f ≠ 0)
      obtain ⟨g, rfl⟩ := Nat.exists_eq_succ_of_ne_zero (by simp at hg; omega : g ≠ 0)
      show stripStep (stripCoreF f) (c :: rest) = stripStep (stripCoreF g) (c :: rest)
      apply stripStep_congr
      intro x hx
      simp only [List.length_cons] at hx hb hf hg
      exact ih x f g (by omega) (by omega) (by omega)

theorem stripAnsi_eq (s : List Char) : stripAnsi s = stripStep stripAnsi s := by
  cases s with
  | nil => rfl
  | cons c rest =>
    show stripStep (stripCoreF rest.length) (c :: rest) = stripStep stripAnsi (c :: rest)
    apply stripStep_congr
    intro x hx
    simp only [List.length_cons] at hx
    exact stripCoreF_stable rest.length x rest.length x.length (by omega) (by omega)
      (le_refl _)

theorem stripAnsi_nil : stripAnsi [] = [] := rfl

theorem stripAnsi_cons_esc_some (c : Char) (t : List Char) (n : Nat)
    (he : isEsc c = true) (hm : matchAfterEsc t = some n) :
    stripAnsi (c :: t) = stripAnsi (t.drop n) := by
  rw [stripAnsi_eq]
  simp [stripStep, he, hm]

theorem stripAnsi_cons_esc_none (c : Char) (t : List Char)
    (he : isEsc c = true) (hm : matchAfterEsc t = none) :
    stripAnsi (c :: t) = c :: stripAnsi t := by
  rw [stripAnsi_eq]
  simp [stripStep, he, hm]

theorem stripAnsi_cons_not_esc (c : Char) (t : List Char) (he : isEsc c = false) :
    stripAnsi (c :: t) = c :: stripAnsi t := by
  rw [stripAnsi_eq]
  simp [stripStep, he]

theorem firstSome_eq_some (l : List Nat) (f : Nat → Option Nat) (n : Nat)
    (h : firstSome l f = some n) : ∃ j ∈ l, f j = some n := by
  induction l with
  | nil => simp [firstSome] at h
  | cons j js ih =>
    simp only [firstSome] at h
    cases hj : f j with
    | some m =>
      rw [hj] at h
      exact ⟨j, by simp, by rw [hj, Option.some_inj.mp h]⟩
    | none =>
      rw [hj] at h
      obtain ⟨j2, hj2, hfj2⟩ := ih h
      exact ⟨j2, by simp [hj2], hfj2⟩

theorem mem_descList (j m : Nat) (h : j ∈ descList m) : j ≤ m := by
  simp only [descList, List.mem_reverse, List.mem_range] at h
  omega

theorem mem_descList1 (j m : Nat) (h : j ∈ descList1 m) : 1 ≤ j ∧ j ≤ m := by
  simp only [descList1, List.mem_map, List.mem_reverse, List.mem_range] at h
  obtain ⟨k, hk, rfl⟩ := h
  omega

theorem matchFinal_le (s : List Char) (n : Nat) (h : matchFinal s = some n) :
    n ≤ s.length := by
  cases s with
  | nil => simp [matchFinal] at h
  | cons c t =>
    simp only [matchFinal] at h
    by_cases hf : isFinalCh c
    · simp [hf] at h
      simp [← h]
    · simp [hf] at h

theorem leadingDigitCount_le (s : List Char) : leadingDigitCount s ≤ s.length := by
  induction s with
  | nil => simp [leadingDigitCount]
  | cons c t ih =>
    simp only [leadingDigitCount]
    by_cases hd : isDigitCh c
    · simp [hd]
      omega
    · simp [hd]

theorem leadingIntermCount_le (s : List Char) : leadingIntermCount s ≤ s.length := by
  induction s with
  | nil => simp [leadingIntermCount]
  | cons c t ih =>
    simp only [leadingIntermCount]
    by_cases hd : isInterm c
    · simp [hd]
      omega
    · simp [hd]

theorem repsFC_le : ∀ bound s, s.length ≤ bound → ∀ n, repsFC s = some n →
    n ≤ s.length := by
  intro bound
  induction bound with
  | zero =>
    intro s hb n h
    have hs : s = [] := List.length_eq_zero.mp (Nat.le_zero.mp hb)
    subst hs
    rw [repsFC_eq] at h
    simp [repsStep] at h
  | succ bound ih =>
    intro s hb n h
    rw [repsFC_eq] at h
    cases s with
    | nil => simp [repsStep] at h
    | cons c t =>
      simp only [repsStep] at h
      by_cases hc : c = ';'
      · subst hc
        simp only [if_pos rfl] at h
        cases hfs : firstSome (descList (min 4 (leadingDigitCount t)))
            (fun j => (repsFC (t.drop j)).map (fun n => 1 + j + n)) with
        | some m =>
          rw [hfs] at h
          obtain ⟨j, hj, hfj⟩ := firstSome_eq_some _ _ _ hfs
          obtain ⟨r, hr, hrn⟩ := Option.map_eq_some'.mp hfj
          have hjle : j ≤ leadingDigitCount t :=
            le_trans (mem_descList j _ hj) (min_le_right _ _)
          have hjt : j ≤ t.length := le_trans hjle (leadingDigitCount_le t)
          have hrle : r ≤ (t.drop j).length := by
            apply ih (t.drop j) _ r hr
            simp only [List.length_drop]
            simp at hb
            omega
          simp only [List.length_drop] at hrle
          have hnm : m = n := by simpa using h
          simp only [List.length_cons]
          omega
        | none =>
          rw [hfs] at h
          exact matchFinal_le _ _ (by simpa using h)
      · simp only [if_neg hc] at h
        exact matchFinal_le _ _ (by simpa using h)

theorem matchAfterI_le (s : List Char) (n : Nat) (h : matchAfterI s = some n) :
    n ≤ s.length := by
  simp only [matchAfterI] at h
  cases hfs : firstSome (descList1 (min 4 (leadingDigitCount s)))
      (fun j => (repsFC (s.drop j)).map (fun n => j + n)) with
  | some m =>
    rw [hfs] at h
    obtain ⟨j, hj, hfj⟩ := firstSome_eq_some _ _ _ hfs
    obtain ⟨r, hr, hrn⟩ := Option.map_eq_some'.mp hfj
    have hjle : j ≤ leadingDigitCount s :=
      le_trans (mem_descList1 j _ hj).2 (min_le_right _ _)
    have hjs : j ≤ s.length := le_trans hjle (leadingDigitCount_le s)
    have hrle : r ≤ (s.drop j).length := repsFC_le (s.drop j).length _ (le_refl _) r hr
    simp only [List.length_drop] at hrle
    have hnm : m = n := by simpa using h
    omega
  | none =>
    rw [hfs] at h
    exact matchFinal_le _ _ (by simpa using h)

theorem matchAfterEsc_le (s : List Char) (n : Nat) (h : matchAfterEsc s = some n) :
    n ≤ s.length := by
  simp only [matchAfterEsc] at h
  obtain ⟨i, hi, hfi⟩ := firstSome_eq_some _ _ _ h
  obtain ⟨m, hm, hmn⟩ := Option.map_eq_some'.mp hfi
  have hile : i ≤ leadingIntermCount s := mem_descList i _ hi
  have his : i ≤ s.length := le_trans hile (leadingIntermCount_le s)
  have hmle : m ≤ (s.drop i).length := matchAfterI_le _ _ hm
  simp only [List.length_drop] at hmle
  omega

theorem leadingDigitCount_append (a b : List Char) (hb : inertTail b) :
    leadingDigitCount (a ++ b) = leadingDigitCount a := by
  induction a with
  | nil =>
    cases b with
    | nil => rfl
    | cons c t =>
      have := hb c (by simp)
      simp [leadingDigitCount, this.2.2.1]
  | cons c t ih =>
    simp only [List.cons_append, leadingDigitCount]
    by_cases hd : isDigitCh c <;> simp [hd, ih]

theorem leadingIntermCount_append (a b : List Char) (hb : inertTail b) :
    leadingIntermCount (a ++ b) = leadingIntermCount a := by
  induction a with
  | nil =>
    cases b with
    | nil => rfl
    | cons c t =>
      have := hb c (by simp)
      simp [leadingIntermCount, this.2.1]
  | cons c t ih =>
    simp only [List.cons_append, leadingIntermCount]
    by_cases hd : isInterm c <;> simp [hd, ih]

theorem matchFinal_append (a b : List Char) (hb : inertTail b) :
    matchFinal (a ++ b) = matchFinal a := by
  cases a with
  | nil =>
    cases b with
    | nil => rfl
    | cons c t =>
      have := hb c (by simp)
      simp [matchFinal, this.2.2.2]
  | cons c t => rfl

theorem repsFC_append (b : List Char) (hb : inertTail b) :
    ∀ bound a, a.length ≤ bound → repsFC (a ++ b) = repsFC a := by
  intro bound
  induction bound with
  | zero =>
    intro a ha
    have := List.length_eq_zero.mp (Nat.le_zero.mp ha)
    subst this
    rw [List.nil_append, repsFC_eq b, repsFC_eq []]
    cases b with
    | nil => rfl
    | cons c t =>
      have := hb c (by simp)
      simp only [repsStep]
      have hc : ¬(c = ';') := by
        intro hcc
        subst hcc
        simp [isInterm] at this
      simp [hc, matchFinal, this.2.2.2]
  | succ bound ih =>
    intro a ha
    cases a with
    | nil =>
      exact ih [] (by simp)
    | cons c t =>
      rw [List.cons_append, repsFC_eq, repsFC_eq (c :: t)]
      simp only [repsStep]
      have hcong : firstSome (descList (min 4 (leadingDigitCount (t ++ b))))
            (fun j => (repsFC ((t ++ b).drop j)).map (fun n => 1 + j + n)) =
          firstSome (descList (min 4 (leadingDigitCount t)))
            (fun j => (repsFC (t.drop j)).map (fun n => 1 + j + n)) := by
        rw [leadingDigitCount_append t b hb]
        apply firstSome_congr
        intro j hj
        have hjle : j ≤ t.length :=
          le_trans (le_trans (mem_descList j _ hj) (min_le_right _ _))
            (leadingDigitCount_le t)
        rw [List.drop_append_of_le_length hjle]
        rw [ih (t.drop j) (by simp only [List.length_drop]; simp at ha; omega)]
      by_cases hc : c = ';'
      · subst hc
        have hmf : matchFinal (';' :: (t ++ b)) = matchFinal (';' :: t) := rfl
        simp only [if_pos rfl, hcong, hmf]
      · have hmf : matchFinal (c :: (t ++ b)) = matchFinal (c :: t) := rfl
        simp only [if_neg hc, hmf]

theorem matchAfterI_append (a b : List Char) (hb : inertTail b) :
    matchAfterI (a ++ b) = matchAfterI a := by
  simp only [matchAfterI]
  have hcong : firstSome (descList1 (min 4 (leadingDigitCount (a ++ b))))
        (fun j => (repsFC ((a ++ b).drop j)).map (fun n => j + n)) =
      firstSome (descList1 (min 4 (leadingDigitCount a)))
        (fun j => (repsFC (a.drop j)).map (fun n => j + n)) := by
    rw [leadingDigitCount_append a b hb]
    apply firstSome_congr
    intro j hj
    have hjle : j ≤ a.length :=
      le_trans (le_trans (mem_descList1 j _ hj).2 (min_le_right _ _))
        (leadingDigitCount_le a)
    rw [List.drop_append_of_le_length hjle]
    rw [repsFC_append b hb (a.drop j).length (a.drop j) (le_refl _)]
  rw [hcong, matchFinal_append a b hb]

theorem matchAfterEsc_append (a b : List Char) (hb : inertTail b) :
    matchAfterEsc (a ++ b) = matchAfterEsc a := by
  simp only [matchAfterEsc]
  rw [leadingIntermCount_append a b hb]
  apply firstSome_congr
  intro i hi
  have hile : i ≤ a.length := le_trans (mem_descList i _ hi) (leadingIntermCount_le a)
  rw [List.drop_append_of_le_length hile]
  rw [matchAfterI_append (a.drop i) b hb]

theorem stripAnsi_escFree (s : List Char) (h : ∀ c ∈ s, isEsc c = false) :
    stripAnsi s = s := by
  induction s with
  | nil => rfl
  | cons c rest ih =>
    rw [stripAnsi_cons_not_esc c rest (h c (by simp))]
    rw [ih (fun x hx => h x (by simp [hx]))]

theorem stripAnsi_prefix_escFree (a b : List Char) (h : ∀ c ∈ a, isEsc c = false) :
    stripAnsi (a ++ b) = a ++ stripAnsi b := by
  induction a with
  | nil => simp
  | cons c t ih =>
    rw [List.cons_append, stripAnsi_cons_not_esc c _ (h c (by simp))]
    rw [ih (fun x hx => h x (by simp [hx]))]
    rfl

theorem stripAnsi_append_inert (b : List Char) (hbi : inertTail b) :
    ∀ bound a, a.length ≤ bound → stripAnsi (a ++ b) = stripAnsi a ++ b := by
  intro bound
  induction bound with
  | zero =>
    intro a ha
    have := List.length_eq_zero.mp (Nat.le_zero.mp ha)
    subst this
    simp only [List.nil_append, stripAnsi_nil]
    exact stripAnsi_escFree b (fun c hc => (hbi c hc).1)
  | succ bound ih =>
    intro a ha
    cases a with
    | nil =>
      exact ih [] (by simp)
    | cons c t =>
      by_cases he : isEsc c
      · cases hm : matchAfterEsc t with
        | some n =>
          have hm2 : matchAfterEsc (t ++ b) = some n := by
            rw [matchAfterEsc_append t b hbi, hm]
          have hn : n ≤ t.length := matchAfterEsc_le t n hm
          rw [List.cons_append, stripAnsi_cons_esc_some c _ n he hm2,
            stripAnsi_cons_esc_some c t n he hm,
            List.drop_append_of_le_length hn]
          exact ih (t.drop n) (by simp only [List.length_drop]; simp at ha; omega)
        | none =>
          have hm2 : matchAfterEsc (t ++ b) = none := by
            rw [matchAfterEsc_append t b hbi, hm]
          rw [List.cons_append, stripAnsi_cons_esc_none c _ he hm2,
            stripAnsi_cons_esc_none c t he hm, ih t (by simp at ha; omega)]
          rfl
      · have he2 : isEsc c = false := by simpa using he
        rw [List.cons_append, stripAnsi_cons_not_esc c _ he2,
          stripAnsi_cons_not_esc c t he2, ih t (by simp at ha; omega)]
        rfl

theorem stripAnsi_length_le : ∀ bound s, s.length ≤ bound →
    (stripAnsi s).length ≤ s.length := by
  intro bound
  induction bound with
  | zero =>
    intro s hb
    have := List.length_eq_zero.mp (Nat.le_zero.mp hb)
    subst this
    simp [stripAnsi_nil]
  | succ bound ih =>
    intro s hb
    cases s with
    | nil => simp [stripAnsi_nil]
    | cons c t =>
      by_cases he : isEsc c
      · cases hm : matchAfterEsc t with
        | some n =>
          rw [stripAnsi_cons_esc_some c t n he hm]
          have h1 : (stripAnsi (t.drop n)).length ≤ (t.drop n).length := by
            apply ih
            simp only [List.length_drop]
            simp at hb
            omega
          simp only [List.length_drop] at h1
          simp only [List.length_cons]
          omega
        | none =>
          rw [stripAnsi_cons_esc_none c t he hm]
          have h1 : (stripAnsi t).length ≤ t.length := ih t (by simp at hb; omega)
          simp only [List.length_cons]
          omega
      · rw [stripAnsi_cons_not_esc c t (by simpa using he)]
        have h1 : (stripAnsi t).length ≤ t.length := ih t (by simp at hb; omega)
        simp only [List.length_cons]
        omega

theorem visibleLength_le (s : List Char) : visibleLength s ≤ s.length :=
  stripAnsi_length_le s.length s (le_refl _)

theorem splitLines_no_break (s : List Char)
    (h : ∀ c ∈ s, c ≠ Char.ofNat 10 ∧ c ≠ Char.ofNat 13) : splitLines s = [s] := by
  induction s with
  | nil => rfl
  | cons c rest ih =>
    rw [splitLines.eq_def]
    split
    · next heq => simp at heq
    · next x v1 v2 r heq =>
      injection heq with hc hrest
      exact absurd (hc.trans rfl) (h c (by simp)).2
    · next x v1 r heq =>
      injection heq with hc hrest
      exact absurd (hc.trans rfl) (h c (by simp)).1
    · next x c2 r2 hn1 hn2 heq =>
      injection heq with hc hrest
      subst hc hrest
      rw [ih (fun x hx => h x (by simp [hx]))]

theorem dropWhile_head_false (p : Char → Bool) (l : List Char) (x : Char)
    (h : (l.dropWhile p).head? = some x) : p x = false := by
  have h2 := List.head?_dropWhile_not p l
  rw [h] at h2
  simpa using h2

theorem jsTrim_decomp (s : List Char) :
    ∃ ws, s.dropWhile isSpaceJS = jsTrim s ++ ws ∧ ∀ c ∈ ws, isSpaceJS c = true := by
  refine ⟨((s.dropWhile isSpaceJS).reverse.takeWhile isSpaceJS).reverse, ?_, ?_⟩
  · show s.dropWhile isSpaceJS = dropTrailingWS (s.dropWhile isSpaceJS) ++ _
    unfold dropTrailingWS
    conv_lhs => rw [← List.reverse_reverse (s.dropWhile isSpaceJS)]
    conv_lhs =>
      rw [← List.takeWhile_append_dropWhile isSpaceJS (s.dropWhile isSpaceJS).reverse]
    rw [List.reverse_append]
  · intro c hc
    rw [List.mem_reverse] at hc
    exact List.mem_takeWhile_imp hc

theorem jsTrim_head_not_space (s : List Char) :
    ∀ x, (jsTrim s).head? = some x → isSpaceJS x = false := by
  intro x hx
  obtain ⟨ws, hdecomp, _⟩ := jsTrim_decomp s
  apply dropWhile_head_false isSpaceJS s
  rw [hdecomp]
  cases hj : jsTrim s with
  | nil => rw [hj] at hx; simp at hx
  | cons c t =>
    rw [hj] at hx
    simp at hx
    subst hx
    simp

theorem jsTrim_last_not_space (s : List Char) :
    ∀ x, (jsTrim s).getLast? = some x → isSpaceJS x = false := by
  intro x hx
  unfold jsTrim dropTrailingWS at hx
  rw [List.getLast?_reverse] at hx
  exact dropWhile_head_false isSpaceJS (s.dropWhile isSpaceJS).reverse x hx

theorem getLast?_mem_own : ∀ (l : List Char) (x : Char), l.getLast? = some x → x ∈ l := by
  intro l
  induction l with
  | nil => intro x h; simp at h
  | cons c t ih =>
    intro x h
    cases t with
    | nil =>
      simp at h
      simp [h]
    | cons d r =>
      rw [List.getLast?_cons_cons] at h
      exact List.mem_cons_of_mem c (ih x h)

theorem splitWS_nil : splitWS [] = [[]] := rfl

theorem splitWS_cons_eq (c : Char) (rest : List Char) :
    splitWS (c :: rest) =
      if isSpaceJS c then
        (match rest with
         | r :: _ => if isSpaceJS r then splitWS rest else [] :: splitWS rest
         | [] => [] :: splitWS rest)
      else
        (match splitWS rest with
         | seg :: segs => (c :: seg) :: segs
         | [] => [[c]]) := rfl

theorem splitWS_ne_nil : ∀ bound s, s.length ≤ bound → splitWS s ≠ [] := by
  intro bound
  induction bound with
  | zero =>
    intro s hb
    have := List.length_eq_zero.mp (Nat.le_zero.mp hb)
    subst this
    simp [splitWS_nil]
  | succ bound ih =>
    intro s hb
    cases s with
    | nil => simp [splitWS_nil]
    | cons c rest =>
      rw [splitWS_cons_eq]
      by_cases hc : isSpaceJS c
      · simp only [hc, if_true]
        cases rest with
        | nil => simp
        | cons r t =>
          by_cases hr : isSpaceJS r
          · simp only [hr, if_true]
            exact ih (r :: t) (by simp at hb ⊢; omega)
          · simp only [hr, if_false]
            simp
      · simp only [hc, if_false]
        cases hsp : splitWS rest with
        | nil => simp
        | cons seg segs => simp

theorem splitWS_no_space : ∀ bound s, s.length ≤ bound →
    ∀ w ∈ splitWS s, ∀ c ∈ w, isSpaceJS c = false := by
  intro bound
  induction bound with
  | zero =>
    intro s hb
    have := List.length_eq_zero.mp (Nat.le_zero.mp hb)
    subst this
    simp [splitWS_nil]
  | succ bound ih =>
    intro s hb
    cases s with
    | nil => simp [splitWS_nil]
    | cons c rest =>
      rw [splitWS_cons_eq]
      have hbr : rest.length ≤ bound := by simp at hb; omega
      by_cases hc : isSpaceJS c
      · simp only [hc, if_true]
        cases rest with
        | nil => simp [splitWS_nil]
        | cons r t =>
          by_cases hr : isSpaceJS r
          · simp only [hr, if_true]
            exact ih (r :: t) hbr
          · simp only [hr, if_false]
            intro w hw
            rcases List.mem_cons.mp hw with hw | hw
            · subst hw; simp
            · exact ih (r :: t) hbr w hw
      · simp only [hc, if_false]
        cases hsp : splitWS rest with
        | nil => exact absurd hsp (splitWS_ne_nil rest.length rest (le_refl _))
        | cons seg segs =>
          intro w hw
          rcases List.mem_cons.mp hw with hw | hw
          · subst hw
            intro x hx
            rcases List.mem_cons.mp hx with hx | hx
            · subst hx; simpa using hc
            · exact ih rest hbr seg (by rw [hsp]; simp) x hx
          · exact ih rest hbr w (by rw [hsp]; simp [hw])

theorem splitWS_nonempty_aux : ∀ bound s, s.length ≤ bound →
    ((∀ x, s.getLast? = some x → isSpaceJS x = false) →
      ∀ w ∈ (splitWS s).tail, w ≠ []) ∧
    (s ≠ [] → (∀ x, s.head? = some x → isSpaceJS x = false) →
      (∀ x, s.getLast? = some x → isSpaceJS x = false) →
      ∀ w ∈ splitWS s, w ≠ []) := by
  intro bound
  induction bound with
  | zero =>
    intro s hb
    have := List.length_eq_zero.mp (Nat.le_zero.mp hb)
    subst this
    exact ⟨by simp [splitWS_nil], by simp⟩
  | succ bound ih =>
    intro s hb
    cases s with
    | nil => exact ⟨by simp [splitWS_nil], by simp⟩
    | cons c rest =>
      have hbr : rest.length ≤ bound := by simp at hb; omega
      have hmain : (∀ x, (c :: rest).getLast? = some x → isSpaceJS x = false) →
          isSpaceJS c = false → ∀ w ∈ splitWS (c :: rest), w ≠ [] := by
        intro hlast hc w hw
        rw [splitWS_cons_eq] at hw
        simp only [hc, Bool.false_eq_true, if_false] at hw
        cases hsp : splitWS rest with
        | nil => exact absurd hsp (splitWS_ne_nil rest.length rest (le_refl _))
        | cons seg segs =>
          rw [hsp] at hw
          simp only [] at hw
          rcases List.mem_cons.mp hw with hw | hw
          · subst hw; simp
          · cases rest with
            | nil =>
              rw [splitWS_nil] at hsp
              injection hsp with h1 h2
              rw [← h2] at hw
              simp at hw
            | cons r t =>
              have hlr : ∀ x, (r :: t).getLast? = some x → isSpaceJS x = false := by
                intro x hx
                exact hlast x (by rw [List.getLast?_cons_cons]; exact hx)
              apply (ih (r :: t) hbr).1 hlr
              rw [hsp]
              simpa using hw
      constructor
      · intro hlast
        by_cases hc : isSpaceJS c
        · rw [splitWS_cons_eq]
          simp only [hc, if_true]
          cases rest with
          | nil =>
            exact absurd (hlast c (by simp)) (by simp [hc])
          | cons r t =>
            have hlr : ∀ x, (r :: t).getLast? = some x → isSpaceJS x = false := by
              intro x hx
              exact hlast x (by rw [List.getLast?_cons_cons]; exact hx)
            by_cases hr : isSpaceJS r
            · simp only [hr, if_true]
              exact (ih (r :: t) hbr).1 hlr
            · simp only [hr, if_false, List.tail_cons]
              exact (ih (r :: t) hbr).2 (by simp)
                (by intro x hx; simp at hx; subst hx; simpa using hr) hlr
        · intro w hw
          exact hmain hlast (by simpa using hc) w (List.mem_of_mem_tail hw)
      · intro _ hhead hlast
        exact hmain hlast (hhead c (by simp))

theorem splitWS_trim_words_ne_nil (s : List Char) (h : jsTrim s ≠ []) :
    ∀ w ∈ splitWS (jsTrim s), w ≠ [] := by
  apply (splitWS_nonempty_aux (jsTrim s).length (jsTrim s) (le_refl _)).2 h
  · intro x hx
    exact jsTrim_head_not_space s x hx
  · intro x hx
    exact jsTrim_last_not_space s x hx

theorem joinCont_length_le : ∀ (ws : List (List Char)) (cur : List Char),
    cur.length ≤ (joinCont cur ws).length := by
  intro ws
  induction ws with
  | nil => intro cur; simp [joinCont]
  | cons w ws ih =>
    intro cur
    calc cur.length ≤ (cur ++ ' ' :: w).length := by simp
    _ ≤ (joinCont (cur ++ ' ' :: w) ws).length := ih _

theorem packLoop_single (width : Nat) : ∀ (ws : List (List Char)) (L : List (List Char))
    (cur : List Char), cur ≠ [] → (joinCont cur ws).length ≤ width →
    packLoop width L cur ws = L ++ [joinCont cur ws] := by
  intro ws
  induction ws with
  | nil =>
    intro L cur hcur hlen
    simp only [packLoop, if_neg hcur, joinCont]
  | cons wd ws ih =>
    intro L cur hcur hlen
    simp only [packLoop, if_neg hcur]
    have hcand : (cur ++ ' ' :: wd).length ≤ width :=
      le_trans (joinCont_length_le ws (cur ++ ' ' :: wd)) hlen
    rw [if_neg (by omega)]
    exact ih L (cur ++ ' ' :: wd) (by simp) hlen

theorem packLoop_lines_le (width : Nat) : ∀ (ws : List (List Char))
    (L : List (List Char)) (cur : List Char),
    (∀ wd ∈ ws, wd.length ≤ width) → (∀ l ∈ L, l.length ≤ width) →
    cur.length ≤ width → ∀ l ∈ packLoop width L cur ws, l.length ≤ width := by
  intro ws
  induction ws with
  | nil =>
    intro L cur hws hL hcur l hl
    simp only [packLoop] at hl
    by_cases hc : cur = []
    · rw [if_pos hc] at hl
      exact hL l hl
    · rw [if_neg hc] at hl
      rcases List.mem_append.mp hl with hl | hl
      · exact hL l hl
      · simp at hl
        subst hl
        exact hcur
  | cons wd ws ih =>
    intro L cur hws hL hcur l hl
    have hwd : wd.length ≤ width := hws wd (by simp)
    have hws2 : ∀ w ∈ ws, w.length ≤ width := fun w hw => hws w (by simp [hw])
    simp only [packLoop] at hl
    by_cases hover : width < (if cur = [] then wd else cur ++ ' ' :: wd).length
    · rw [if_pos hover] at hl
      apply ih _ _ hws2 _ hwd l hl
      intro x hx
      by_cases hc : cur = []
      · rw [if_pos hc] at hx
        exact hL x hx
      · rw [if_neg hc] at hx
        rcases List.mem_append.mp hx with hx | hx
        · exact hL x hx
        · simp at hx
          subst hx
          exact hcur
    · rw [if_neg hover] at hl
      exact ih _ _ hws2 hL (by omega) l hl

theorem packLoop_mono (width : Nat) : ∀ (ws : List (List Char))
    (L : List (List Char)) (cur x : List Char), x ∈ L →
    x ∈ packLoop width L cur ws := by
  intro ws
  induction ws with
  | nil =>
    intro L cur x hx
    simp only [packLoop]
    by_cases hc : cur = []
    · rw [if_pos hc]; exact hx
    · rw [if_neg hc]; exact List.mem_append_left _ hx
  | cons wd ws ih =>
    intro L cur x hx
    simp only [packLoop]
    by_cases hover : width < (if cur = [] then wd else cur ++ ' ' :: wd).length
    · rw [if_pos hover]
      apply ih
      by_cases hc : cur = []
      · rw [if_pos hc]; exact hx
      · rw [if_neg hc]; exact List.mem_append_left _ hx
    · rw [if_neg hover]
      exact ih _ _ _ hx

theorem packLoop_cur_mem (width : Nat) : ∀ (ws : List (List Char))
    (L : List (List Char)) (cur : List Char), width < cur.length →
    cur ∈ packLoop width L cur ws := by
  intro ws
  induction ws with
  | nil =>
    intro L cur hcur
    have hc : cur ≠ [] := by intro h; subst h; simp at hcur
    simp only [packLoop, if_neg hc]
    simp
  | cons wd ws ih =>
    intro L cur hcur
    have hc : cur ≠ [] := by intro h; subst h; simp at hcur
    simp only [packLoop, if_neg hc]
    have hover : width < (cur ++ ' ' :: wd).length := by
      simp only [List.length_append, List.length_cons]
      omega
    rw [if_pos hover]
    apply packLoop_mono
    exact List.mem_append_right _ (by simp)

theorem packLoop_word_mem (width : Nat) : ∀ (ws : List (List Char))
    (L : List (List Char)) (cur wd : List Char), wd ∈ ws → width < wd.length →
    wd ∈ packLoop width L cur ws := by
  intro ws
  induction ws with
  | nil =>
    intro L cur wd hwd
    simp at hwd
  | cons w0 ws ih =>
    intro L cur wd hwd hlen
    rcases List.mem_cons.mp hwd with hwd | hwd
    · subst hwd
      simp only [packLoop]
      by_cases hc : cur = []
      · rw [if_pos hc, if_pos (by exact hlen)]
        exact packLoop_cur_mem width ws _ wd hlen
      · have hover : width < (if cur = [] then wd else cur ++ ' ' :: wd).length := by
          rw [if_neg hc]
          simp only [List.length_append, List.length_cons]
          omega
        rw [if_pos hover]
        exact packLoop_cur_mem width ws _ wd hlen
    · simp only [packLoop]
      by_cases hover : width < (if cur = [] then w0 else cur ++ ' ' :: w0).length
      · rw [if_pos hover]
        exact ih _ _ wd hwd hlen
      · rw [if_neg hover]
        exact ih _ _ wd hwd hlen

theorem noAdjSp_of_no_space : ∀ l : List Char, (∀ c ∈ l, isSpaceJS c = false) →
    noAdjSp l = true := by
  intro l
  induction l with
  | nil => intro; rfl
  | cons a t ih =>
    intro h
    cases t with
    | nil => rfl
    | cons b r =>
      simp only [noAdjSp, Bool.and_eq_true]
      constructor
      · simp [h a (by simp)]
      · exact ih (fun c hc => h c (by simp [hc]))

theorem noAdjSp_append : ∀ (a b : List Char), noAdjSp a = true → noAdjSp b = true →
    (∀ x y, a.getLast? = some x → b.head? = some y →
      (isSpaceJS x && isSpaceJS y) = false) →
    noAdjSp (a ++ b) = true := by
  intro a
  induction a with
  | nil =>
    intro b _ hb _
    simpa using hb
  | cons x t ih =>
    intro b ha hb hbound
    cases t with
    | nil =>
      cases b with
      | nil => rfl
      | cons y b2 =>
        simp only [List.cons_append, List.nil_append, noAdjSp, Bool.and_eq_true]
        exact ⟨by simp [hbound x y (by simp) (by simp)], hb⟩
    | cons x2 t2 =>
      simp only [List.cons_append, noAdjSp, Bool.and_eq_true] at ha ⊢
      constructor
      · exact ha.1
      · exact ih b ha.2 hb (fun u v hu hv =>
          hbound u v (by rw [List.getLast?_cons_cons]; exact hu) hv)

theorem wsNormalized_join (cur wd : List Char)
    (hcur : wsNormalized cur = true)
    (hlast : ∀ x, cur.getLast? = some x → isSpaceJS x = false)
    (hwd : wd ≠ []) (hwdns : ∀ c ∈ wd, isSpaceJS c = false) :
    wsNormalized (cur ++ ' ' :: wd) = true := by
  simp only [wsNormalized, Bool.and_eq_true] at hcur ⊢
  constructor
  · rw [List.all_append]
    simp only [Bool.and_eq_true]
    refine ⟨hcur.1, ?_⟩
    simp only [List.all_cons, Bool.and_eq_true]
    constructor
    · simp
    · rw [List.all_eq_true]
      intro c hc
      simp [hwdns c hc]
  · apply noAdjSp_append cur (' ' :: wd) hcur.2
    · cases wd with
      | nil => exact absurd rfl hwd
      | cons d r =>
        simp only [noAdjSp, Bool.and_eq_true]
        constructor
        · simp [hwdns d (by simp)]
        · exact noAdjSp_of_no_space (d :: r) (fun c hc => hwdns c hc)
    · intro x y hx hy
      simp at hy
      subst hy
      simp [hlast x hx]

theorem wsNormalized_word (wd : List Char) (hwdns : ∀ c ∈ wd, isSpaceJS c = false) :
    wsNormalized wd = true := by
  simp only [wsNormalized, Bool.and_eq_true]
  constructor
  · rw [List.all_eq_true]
    intro c hc
    simp [hwdns c hc]
  · exact noAdjSp_of_no_space wd hwdns

theorem packLoop_wsNorm (width : Nat) : ∀ (ws : List (List Char))
    (L : List (List Char)) (cur : List Char),
    (∀ wd ∈ ws, wd ≠ [] ∧ ∀ c ∈ wd, isSpaceJS c = false) →
    (∀ l ∈ L, wsNormalized l = true) →
    wsNormalized cur = true →
    (∀ x, cur.getLast? = some x → isSpaceJS x = false) →
    ∀ l ∈ packLoop width L cur ws, wsNormalized l = true := by
  intro ws
  induction ws with
  | nil =>
    intro L cur hws hL hcur hlast l hl
    simp only [packLoop] at hl
    by_cases hc : cur = []
    · rw [if_pos hc] at hl
      exact hL l hl
    · rw [if_neg hc] at hl
      rcases List.mem_append.mp hl with hl | hl
      · exact hL l hl
      · simp at hl
        subst hl
        exact hcur
  | cons wd ws ih =>
    intro L cur hws hL hcur hlast l hl
    obtain ⟨hwdne, hwdns⟩ := hws wd (by simp)
    have hws2 : ∀ w ∈ ws, w ≠ [] ∧ ∀ c ∈ w, isSpaceJS c = false :=
      fun w hw => hws w (by simp [hw])
    have hwdnorm : wsNormalized wd = true := wsNormalized_word wd hwdns
    have hwdlast : ∀ x, wd.getLast? = some x → isSpaceJS x = false :=
      fun x hx => hwdns x (getLast?_mem_own wd x hx)
    simp only [packLoop] at hl
    by_cases hover : width < (if cur = [] then wd else cur ++ ' ' :: wd).length
    · rw [if_pos hover] at hl
      apply ih _ wd hws2 _ hwdnorm hwdlast l hl
      intro x hx
      by_cases hc : cur = []
      · rw [if_pos hc] at hx
        exact hL x hx
      · rw [if_neg hc] at hx
        rcases List.mem_append.mp hx with hx | hx
        · exact hL x hx
        · simp at hx
          subst hx
          exact hcur
    · rw [if_neg hover] at hl
      by_cases hc : cur = []
      · rw [if_pos hc] at hl
        exact ih _ _ hws2 hL hwdnorm hwdlast l hl
      · rw [if_neg hc] at hl
        apply ih _ _ hws2 hL
          (wsNormalized_join cur wd hcur hlast hwdne hwdns) _ l hl
        intro x hx
        rw [List.getLast?_append_of_ne_nil cur (by simp : ' ' :: wd ≠ [])] at hx
        cases wd with
        | nil => exact absurd rfl hwdne
        | cons d r =>
          rw [List.getLast?_cons_cons] at hx
          exact hwdns x (getLast?_mem_own (d :: r) x hx)

/-- C7: cleaning the about text "**Hello** world\n> quoted line" removes the
bold markers, strips the leading block-quote marker, collapses the newline
run, and trims, yielding exactly "Hello world\nquoted line". -/
theorem clean_about_example :
    clean (str "**Hello** world\n> quoted line") = str "Hello world\nquoted line" := by
  decide

/-- C8 is false as stated: at a reported column count of 0 the source's
`columns || 80` takes the falsy branch and the width is 80, not the claimed
clamp of 0 into [60, 100], which would be 60. -/
theorem computeWidth_zero_cex :
    computeWidth (some 0) = 80 ∧ max 60 (min 0 100) = 60 ∧
      computeWidth (some 0) ≠ max 60 (min 0 100) := by
  decide

/-- C8 amended: for every positive reported terminal column count the chosen
box width is that count clamped into [60, 100]; a reported count of 0 is
falsy and is treated like an unavailable count, so that it, like an absent
count, defaults to 80 (which is its own clamp). -/
theorem computeWidth_clamps :
    (∀ c : Nat, 0 < c → computeWidth (some c) = max 60 (min c 100)) ∧
    computeWidth (some 0) = 80 ∧
    computeWidth none = 80 := by
  refine ⟨?_, rfl, rfl⟩
  intro c hc
  unfold computeWidth jsOrNum
  simp only []
  rw [if_neg (by omega : ¬(c = 0))]

/-- Witness for the amended C8 at the concrete column count 120. -/
theorem computeWidth_clamps_witness :
    computeWidth (some 120) = max 60 (min 120 100) :=
  computeWidth_clamps.1 120 (by decide)

/-- C9: for a non-2xx status, fetching fails with an error whose message
contains the numeric status code; main prints the coloured Error line to
stderr, sets a non-zero exit code, and prints no (partial) box to stdout. -/
theorem non2xx_behaviour (status : Nat) (body : Except (List Char) (Option Profile))
    (columns : Option Nat) (h : status < 200 ∨ 300 ≤ status) :
    ∃ msg, fetchProfileModel status body = Except.error msg ∧
      (∃ pre post, msg = pre ++ (Nat.repr status).data ++ post) ∧
      (mainModel (fetchProfileModel status body) columns).stderr =
        some (errorLine msg) ∧
      (mainModel (fetchProfileModel status body) columns).exitCode ≠ 0 ∧
      (mainModel (fetchProfileModel status body) columns).stdout = none := by
  refine ⟨statusMsg status, ?_, ⟨str "Request failed with status ", [],
    by simp [statusMsg]⟩, ?_, ?_, ?_⟩ <;>
    simp [fetchProfileModel, if_pos h, mainModel]

/-- Witness for C9 at status 404. -/
theorem non2xx_behaviour_witness :
    (mainModel (fetchProfileModel 404 (Except.ok none)) none).exitCode ≠ 0 ∧
    (mainModel (fetchProfileModel 404 (Except.ok none)) none).stdout = none := by
  obtain ⟨msg, h1, h2, h3, h4, h5⟩ :=
    non2xx_behaviour 404 (Except.ok none) none (by decide)
  exact ⟨h4, h5⟩

/-- C6 is false as stated: on this input one stripping pass leaves a residual
escape character which a second pass removes together with the following
letter, so the visible length is not preserved. -/
theorem strip_not_idempotent_cex :
    visibleLength (stripAnsi (Char.ofNat 27 :: str "\x1b[31mA")) ≠
      visibleLength (Char.ofNat 27 :: str "\x1b[31mA") := by
  decide

/-- C6 amended: for every string whose stripped form contains no residual
escape characters, stripping is idempotent with respect to visible length. -/
theorem strip_idempotent_of_escFree (s : List Char)
    (h : ∀ c ∈ stripAnsi s, isEsc c = false) :
    visibleLength (stripAnsi s) = visibleLength s := by
  unfold visibleLength
  rw [stripAnsi_escFree (stripAnsi s) h]

/-- Witness for the amended C6 on a well-formed coloured string. -/
theorem strip_idempotent_witness :
    visibleLength (stripAnsi (str "\x1b[36mhi\x1b[0m")) =
      visibleLength (str "\x1b[36mhi\x1b[0m") :=
  strip_idempotent_of_escFree (str "\x1b[36mhi\x1b[0m") (by decide)

/-- C4 is false as stated: the single-line paragraph "a  b" is shorter than
the width 10, yet wrapping returns the rejoined line "a b", not the trimmed
paragraph itself (interior whitespace is normalised). -/
theorem wrap_short_para_cex :
    wrapText (str "a  b") 10 0 = [str "a b"] ∧
    jsTrim (str "a  b") = str "a  b" ∧
    wrapText (str "a  b") 10 0 ≠ [jsTrim (str "a  b")] := by
  decide

theorem joinCont_head : ∀ (ws : List (List Char)) (c : Char) (rest : List Char),
    (joinCont (c :: rest) ws).head? = some c := by
  intro ws
  induction ws with
  | nil => intro c rest; rfl
  | cons w ws ih =>
    intro c rest
    show (joinCont ((c :: rest) ++ ' ' :: w) ws).head? = some c
    rw [List.cons_append]
    exact ih c (rest ++ ' ' :: w)

/-- C4 amended: for a single-line paragraph whose trimmed form is non-empty,
has normalised interior whitespace (splitting into words and rejoining with
single blanks is the identity), and is shorter than the width, wrapping
returns exactly one line equal to the trimmed paragraph. -/
theorem wrap_short_para (text : List Char) (width : Nat)
    (hline : ∀ c ∈ text, c ≠ Char.ofNat 10 ∧ c ≠ Char.ofNat 13)
    (hne : jsTrim text ≠ [])
    (hnorm : joinWords (splitWS (jsTrim text)) = jsTrim text)
    (hlen : (jsTrim text).length < width) :
    wrapText text width 0 = [jsTrim text] := by
  have htext : text ≠ [] := by
    intro h
    subst h
    exact hne rfl
  unfold wrapText
  rw [if_neg htext, splitLines_no_break text hline]
  simp only [List.map_cons, List.map_nil, List.filter]
  have hfilter : (!(jsTrim text).isEmpty) = true := by
    simp [List.isEmpty_iff, hne]
  rw [hfilter]
  simp only [List.flatMap_cons, List.flatMap_nil, List.append_nil]
  unfold wrapPara
  cases hsp : splitWS (jsTrim text) with
  | nil => exact absurd hsp (splitWS_ne_nil (jsTrim text).length _ (le_refl _))
  | cons w0 ws =>
    have hw0 : w0 ≠ [] := by
      intro hw0
      subst hw0
      rw [hsp] at hnorm
      cases ws with
      | nil => exact hne (hnorm.symm)
      | cons w1 ws1 =>
        have hhead : (jsTrim text).head? = some ' ' := by
          rw [← hnorm]
          show (joinCont ([] ++ ' ' :: w1) ws1).head? = some ' '
          rw [List.nil_append]
          exact joinCont_head ws1 ' ' w1
        have := jsTrim_head_not_space text ' ' hhead
        simp [isSpaceJS] at this
    have hjoin : joinCont w0 ws = jsTrim text := by
      rw [hsp] at hnorm
      exact hnorm
    simp only [packLoop, if_true]
    have hw0len : ¬(width < w0.length) := by
      have h1 := joinCont_length_le ws w0
      have h2 := congrArg List.length hjoin
      omega
    rw [if_neg hw0len]
    rw [packLoop_single width ws [] w0 hw0 (by rw [hjoin]; omega)]
    rw [hjoin]
    simp

/-- Witness for the amended C4 on the paragraph "hi there". -/
theorem wrap_short_para_witness : wrapText (str "hi there") 20 0 = [jsTrim (str "hi there")] :=
  wrap_short_para (str "hi there") 20 (by decide) (by decide) (by decide) (by decide)

/-- C5: a word longer than the width is never split or hyphenated; it is
emitted alone (with only the indent prefix) as one of the output lines. -/
theorem long_word_own_line (text : List Char) (width indent : Nat)
    (para wd : List Char)
    (hpara : para ∈ (splitLines text).map jsTrim)
    (hwd : wd ∈ splitWS para) (hlen : width < wd.length) :
    (List.replicate indent ' ' ++ wd) ∈ wrapText text width indent := by
  have hwdne : wd ≠ [] := by
    intro h
    subst h
    simp at hlen
  have hparane : para ≠ [] := by
    intro h
    subst h
    rw [splitWS_nil] at hwd
    simp at hwd
    exact hwdne hwd
  have htext : text ≠ [] := by
    intro h
    subst h
    have : splitLines ([] : List Char) = [[]] := rfl
    rw [this] at hpara
    simp at hpara
    exact hparane (by rw [hpara]; rfl)
  unfold wrapText
  rw [if_neg htext]
  rw [List.mem_flatMap]
  refine ⟨para, ?_, ?_⟩
  · rw [List.mem_filter]
    exact ⟨hpara, by simp [List.isEmpty_iff, hparane]⟩
  · unfold wrapPara
    rw [List.mem_map]
    exact ⟨wd, packLoop_word_mem width (splitWS para) [] [] wd hwd hlen, rfl⟩

/-- Witness for C5: the word "hello" exceeds width 3 and appears alone. -/
theorem long_word_own_line_witness :
    (List.replicate 0 ' ' ++ str "hello") ∈ wrapText (str "hello") 3 0 :=
  long_word_own_line (str "hello") 3 0 (str "hello") (str "hello")
    (by decide) (by decide) (by decide)

/-- C3: when no word of the text is longer than the positive width, every
line produced by wrapping with indent 0 has visible length at most the
width. -/
theorem wrap_lines_within_width (text : List Char) (w : Nat) (hw : 0 < w)
    (hwords : ∀ para ∈ (splitLines text).map jsTrim, ∀ wd ∈ splitWS para,
      wd.length ≤ w) :
    ∀ l ∈ wrapText text w 0, visibleLength l ≤ w := by
  intro l hl
  unfold wrapText at hl
  by_cases htext : text = []
  · rw [if_pos htext] at hl
    simp at hl
  · rw [if_neg htext] at hl
    rw [List.mem_flatMap] at hl
    obtain ⟨para, hpara_f, hl2⟩ := hl
    have hpara : para ∈ (splitLines text).map jsTrim :=
      List.mem_of_mem_filter hpara_f
    unfold wrapPara at hl2
    rw [List.mem_map] at hl2
    obtain ⟨l0, hl0, rfl⟩ := hl2
    have hlen : l0.length ≤ w :=
      packLoop_lines_le w (splitWS para) [] [] (hwords para hpara)
        (by simp) (by simp) l0 hl0
    calc visibleLength (List.replicate 0 ' ' ++ l0)
        ≤ (List.replicate 0 ' ' ++ l0).length := visibleLength_le _
    _ = l0.length := by simp
    _ ≤ w := hlen

/-- Witness for C3 on "ab cd" at width 2. -/
theorem wrap_lines_within_width_witness : visibleLength (str "ab") ≤ 2 :=
  wrap_lines_within_width (str "ab cd") 2 (by decide) (by decide)
    (str "ab") (by decide)

/-- C10: wrapping splits paragraphs on whitespace runs and rejoins words with
single blanks, so beyond the indent prefix an output line never contains a
run of two whitespace characters nor any whitespace other than a blank. -/
theorem wrap_normalizes_whitespace (text : List Char) (w ind : Nat) :
    ∀ l ∈ wrapText text w ind, l.take ind = List.replicate ind ' ' ∧
      wsNormalized (l.drop ind) = true := by
  intro l hl
  unfold wrapText at hl
  by_cases htext : text = []
  · rw [if_pos htext] at hl
    simp at hl
  · rw [if_neg htext] at hl
    rw [List.mem_flatMap] at hl
    obtain ⟨para, hpara_f, hl2⟩ := hl
    have hpara : para ∈ (splitLines text).map jsTrim :=
      List.mem_of_mem_filter hpara_f
    have hparane : para ≠ [] := by
      have := (List.mem_filter.mp hpara_f).2
      simpa [List.isEmpty_iff] using this
    rw [List.mem_map] at hpara
    obtain ⟨para0, _, hpara0⟩ := hpara
    unfold wrapPara at hl2
    rw [List.mem_map] at hl2
    obtain ⟨l0, hl0, rfl⟩ := hl2
    have hwords : ∀ wd ∈ splitWS para, wd ≠ [] ∧ ∀ c ∈ wd, isSpaceJS c = false := by
      intro wd hwd
      constructor
      · apply splitWS_trim_words_ne_nil para0 (by rw [hpara0]; exact hparane)
        rw [hpara0]
        exact hwd
      · exact splitWS_no_space para.length para (le_refl _) wd hwd
    have hnorm : wsNormalized l0 = true :=
      packLoop_wsNorm w (splitWS para) [] [] hwords (by simp) (by rfl)
        (by intro x hx; simp at hx) l0 hl0
    constructor
    · rw [List.take_left' (by simp)]
    · rw [List.drop_left' (by simp)]
      exact hnorm

/-- Witness for C10: tab and blank runs in "a \t b" do not survive wrapping. -/
theorem wrap_normalizes_whitespace_witness :
    (str "a b").take 0 = List.replicate 0 ' ' ∧
      wsNormalized ((str "a b").drop 0) = true :=
  wrap_normalizes_whitespace (str "a \t b") 10 0 (str "a b") (by decide)

/-- C1 is false as stated: at width 5 the rendered row has visible length 7. -/
theorem boxLine_small_width_cex : visibleLength (boxLine (str "a") 5) ≠ 5 := by
  decide

/-- C1 amended: for every text and every width of at least 7, the `boxLine`
output has visible length exactly equal to the requested width, including
when the text is over-length and must be truncated. -/
theorem boxLine_visible_width (text : List Char) (width : Nat) (h : 7 ≤ width) :
    visibleLength (boxLine text width) = width := by
  have hinner : innerOf width = width - 6 := by
    unfold innerOf CONTENT_MARGIN
    omega
  have hinner1 : 1 ≤ innerOf width := by omega
  have hbox : boxLine text width =
      (['│', ' ', ' '] : List Char) ++ (rawOf text width ++
        (List.replicate (padOf text width) ' ' ++ [' ', ' ', '│'])) := by
    unfold boxLine CONTENT_MARGIN
    simp [List.replicate]
  have hpre : ∀ c ∈ (['│', ' ', ' '] : List Char), isEsc c = false := by decide
  have hsuf : inertTail (List.replicate (padOf text width) ' ' ++
      ([' ', ' ', '│'] : List Char)) := by
    intro c hc
    rcases List.mem_append.mp hc with hc | hc
    · have hce : c = ' ' := List.eq_of_mem_replicate hc
      subst hce
      decide
    · fin_cases hc <;> decide
  unfold visibleLength
  rw [hbox, stripAnsi_prefix_escFree _ _ hpre,
    stripAnsi_append_inert _ hsuf (rawOf text width).length _ (le_refl _)]
  simp only [List.length_append, List.length_cons, List.length_nil,
    List.length_replicate]
  by_cases hover : innerOf width < visibleLength text
  · have hraw : rawOf text width =
        (stripAnsi text).take (innerOf width - 1) ++ ['…'] := by
      unfold rawOf jsSliceTo
      rw [if_pos hover]
      congr 1
      rw [if_neg (by omega : ¬((innerOf width : Int) - 1 < 0))]
      congr 1
      omega
    have hdot : inertTail ['…'] := by
      intro c hc
      simp at hc
      subst hc
      decide
    have hstr : stripAnsi (rawOf text width) =
        stripAnsi ((stripAnsi text).take (innerOf width - 1)) ++ ['…'] := by
      rw [hraw]
      exact stripAnsi_append_inert ['…'] hdot _ _ (le_refl _)
    have hL : (stripAnsi ((stripAnsi text).take (innerOf width - 1))).length ≤
        innerOf width - 1 := by
      calc (stripAnsi ((stripAnsi text).take (innerOf width - 1))).length
          ≤ ((stripAnsi text).take (innerOf width - 1)).length :=
            stripAnsi_length_le _ _ (le_refl _)
      _ ≤ innerOf width - 1 := by
            rw [List.length_take]
            omega
    have hpad : padOf text width =
        innerOf width -
          ((stripAnsi ((stripAnsi text).take (innerOf width - 1))).length + 1) := by
      unfold padOf visibleLength
      rw [hstr]
      simp
    rw [hstr, hpad]
    simp only [List.length_append, List.length_cons, List.length_nil]
    omega
  · have hraw : rawOf text width = text := by
      unfold rawOf
      rw [if_neg hover]
    have hpad : padOf text width = innerOf width - visibleLength text := by
      unfold padOf
      rw [hraw]
    rw [hpad, hraw]
    have hvl : visibleLength text ≤ innerOf width := by omega
    unfold visibleLength at hvl ⊢
    omega

/-- Witness for the amended C1 at width 80 with a short coloured text. -/
theorem boxLine_visible_width_witness :
    visibleLength (boxLine (cyan (str "hi")) 80) = 80 :=
  boxLine_visible_width (cyan (str "hi")) 80 (by decide)

theorem boxDivider_ne_boxTop (l1 l2 : List Char) (w1 w2 : Nat) :
    boxDivider l1 w1 ≠ boxTop l2 w2 := by
  unfold boxDivider boxTop
  intro hc
  injection hc with h1 _
  exact absurd h1 (by decide)

theorem boxDivider_ne_boxLine (l1 t : List Char) (w1 w2 : Nat) :
    boxDivider l1 w1 ≠ boxLine t w2 := by
  unfold boxDivider boxLine
  intro hc
  injection hc with h1 _
  exact absurd h1 (by decide)

theorem boxDivider_ne_boxBottom (l1 : List Char) (w1 w2 : Nat) :
    boxDivider l1 w1 ≠ boxBottom w2 := by
  unfold boxDivider boxBottom
  intro hc
  injection hc with h1 _
  exact absurd h1 (by decide)

theorem boxDivider_about_ne_details (w1 w2 : Nat) :
    boxDivider (str "about") w1 ≠ boxDivider (str "details") w2 := by
  intro hc
  have h3 := congrArg (fun l => List.take 3 l) hc
  have e1 : (boxDivider (str "about") w1).take 3 = ['├', ' ', 'A'] := rfl
  have e2 : (boxDivider (str "details") w2).take 3 = ['├', ' ', 'D'] := rfl
  simp only at h3
  rw [e1, e2] at h3
  exact absurd h3 (by decide)

theorem boxDivider_about_ne_contact (w1 w2 : Nat) :
    boxDivider (str "about") w1 ≠ boxDivider (str "contact") w2 := by
  intro hc
  have h3 := congrArg (fun l => List.take 3 l) hc
  have e1 : (boxDivider (str "about") w1).take 3 = ['├', ' ', 'A'] := rfl
  have e2 : (boxDivider (str "contact") w2).take 3 = ['├', ' ', 'C'] := rfl
  simp only at h3
  rw [e1, e2] at h3
  exact absurd h3 (by decide)

/-- C2 is false as stated: the empty profile has no detail fields, yet the
rendered box still contains the "details" section divider. -/
theorem empty_profile_details_present :
    boxDivider (str "details") 80 ∈ renderLines emptyProfile none := by
  decide

/-- C2 amended: rendering the empty profile succeeds and uses the fallback
product name as header; the about section (divider and rows) is omitted
whenever the cleaned about text is empty, but the details and contact
dividers are always emitted, even when all their fields are absent. -/
theorem empty_profile_render :
    renderLines emptyProfile none =
      [boxTop (str "Profile") 80,
       boxLine (cyan (bold (str "Zephinax"))) 80,
       boxDivider (str "details") 80,
       boxDivider (str "contact") 80,
       boxBottom 80] ∧
    (∀ (p : Profile) (cols : Option Nat), clean (jsOr p.about p.bio) = [] →
      boxDivider (str "about") (computeWidth cols) ∉ renderLines p cols) := by
  constructor
  · decide
  · intro p cols habout hmem
    have hal : aboutLinesOf p (computeWidth cols) = [] := by
      unfold aboutLinesOf aboutOf
      rw [if_pos habout]
    unfold renderLines at hmem
    rw [hal] at hmem
    rw [List.mem_filterMap] at hmem
    obtain ⟨a, ha, hid⟩ := hmem
    simp only [id] at hid
    subst hid
    simp only [List.map_nil, List.nil_append, List.mem_append, List.mem_cons,
      List.not_mem_nil, or_false] at ha
    rcases ha with (ha | ha | ha | ha | ha | ha | ha | ha | ha | ha) | ha
    · exact boxDivider_ne_boxTop _ _ _ _ (Option.some_inj.mp ha)
    · exact boxDivider_ne_boxLine _ _ _ _ (Option.some_inj.mp ha)
    · cases hsec : secondaryOf p with
      | none => rw [hsec] at ha; simp at ha
      | some s =>
        rw [hsec] at ha
        simp only [Option.map_some'] at ha
        exact boxDivider_ne_boxLine _ _ _ _ (Option.some_inj.mp ha)
    · exact boxDivider_about_ne_details _ _ (Option.some_inj.mp ha)
    · unfold fieldLine at ha
      by_cases hv : p.jobTitle = []
      · rw [if_pos hv] at ha; simp at ha
      · rw [if_neg hv] at ha
        exact boxDivider_ne_boxLine _ _ _ _ (Option.some_inj.mp ha)
    · unfold fieldLine at ha
      by_cases hv : p.timeZone = []
      · rw [if_pos hv] at ha; simp at ha
      · rw [if_neg hv] at ha
        exact boxDivider_ne_boxLine _ _ _ _ (Option.some_inj.mp ha)
    · exact boxDivider_about_ne_contact _ _ (Option.some_inj.mp ha)
    · unfold fieldLine at ha
      by_cases hv : p.email = []
      · rw [if_pos hv] at ha; simp at ha
      · rw [if_neg hv] at ha
        exact boxDivider_ne_boxLine _ _ _ _ (Option.some_inj.mp ha)
    · unfold fieldLine at ha
      by_cases hv : p.website = []
      · rw [if_pos hv] at ha; simp at ha
      · rw [if_neg hv] at ha
        exact boxDivider_ne_boxLine _ _ _ _ (Option.some_inj.mp ha)
    · rw [if_pos True.intro] at ha
      simp at ha
    · exact boxDivider_ne_boxBottom _ _ _ (Option.some_inj.mp ha)

/-- Witness for the about-omission part of the amended C2. -/
theorem empty_profile_render_witness :
    boxDivider (str "about") (computeWidth none) ∉ renderLines emptyProfile none :=
  empty_profile_render.2 emptyProfile none (by decide)
